import Mathlib

/-!
Verification of the crypto repository's natural-language specification.

The core component is the configurable BLAKE2-style hash engine (spec §§3-4):
two word-width variants (blake2s: 32-bit words, blake2b: 64-bit words) sharing
one generic algorithm shape (spec §9).  The engine implementation itself is not
under src/ (only its test files are), so the engine definitions below are
modelled from the spec, word for word where the spec decides, and constrained
by the test files under src/ where those decide (test vectors, verifyParams
behaviour).  Machine words are Nat with explicit reduction modulo 2^W; bytes
are Nat (Go uint8 values are always < 256); fallible construction returns
Except.
-/

set_option maxRecDepth 10000

namespace Blake2

/-- Modelled from the spec: configuration of one variant of the generic engine
(spec §9: "one generic engine parameterized by a configuration record,
instantiated twice").  Word width, round count, the four rotation distances,
the 8 initialization words, block size in bytes, maximum digest size, maximum
key size and the salt/personalization field size of the parameter block. -/
structure Config where
  wordBits : Nat
  wordBytes : Nat
  rounds : Nat
  r1 : Nat
  r2 : Nat
  r3 : Nat
  r4 : Nat
  iv : List Nat
  blockSize : Nat
  maxDigest : Nat
  maxKey : Nat
  saltSize : Nat
  blockPos : 0 < blockSize

/-- Modelled from the spec: hashing parameters (spec §3 Data Model):
digest size, key, salt, personalization.  Tree fields are fixed to the
sequential-mode constants (fanout = depth = 1, the rest zero) as in the
parameter-block encoding below; no claim exercises tree mode. -/
structure Params where
  hashSize : Nat
  key : List Nat
  salt : List Nat
  personal : List Nat

/-- Modelled from the spec: the ConfigurationError family of spec §7
("InvalidDigestSize, InvalidKeySize, InvalidSaltSize, InvalidPersoSize"),
carrying the offending length (spec §7: "identifying the offending field and
its invalid length").  Note: TestVerifyParams (src/unnamed/part_000, lines
96-99) requires an out-of-range HashSize to pass validation, so the
invalidDigestSize kind is never produced by verifyParams below. -/
inductive B2Error where
  | invalidDigestSize (n : Nat)
  | invalidKeySize (n : Nat)
  | invalidSaltSize (n : Nat)
  | invalidPersoSize (n : Nat)
deriving DecidableEq

/-- Modelled from the spec: the sigma message-index permutation schedule
(spec §4.4: "a fixed, round-dependent permutation table - the sigma schedule,
identical across implementations, published per variant"); the published
10-row table, rows repeating modulo 10 for the 64-bit variant's rounds 10, 11. -/
def sigma : List (List Nat) :=
  [[0, 1, 2, 3, 4, 5, 6, 7, 8, 9, 10, 11, 12, 13, 14, 15],
   [14, 10, 4, 8, 9, 15, 13, 6, 1, 12, 0, 2, 11, 7, 5, 3],
   [11, 8, 12, 0, 5, 2, 15, 13, 10, 14, 3, 6, 7, 1, 9, 4],
   [7, 9, 3, 1, 13, 12, 11, 14, 2, 6, 5, 10, 4, 0, 15, 8],
   [9, 0, 5, 7, 2, 4, 10, 15, 14, 1, 11, 12, 6, 8, 3, 13],
   [2, 12, 6, 10, 0, 11, 8, 3, 4, 13, 7, 5, 15, 14, 1, 9],
   [12, 5, 1, 15, 14, 13, 4, 10, 0, 7, 6, 3, 9, 2, 8, 11],
   [13, 11, 7, 14, 12, 1, 3, 9, 5, 0, 15, 4, 8, 6, 2, 10],
   [6, 15, 14, 9, 11, 3, 0, 8, 12, 2, 13, 7, 1, 4, 10, 5],
   [10, 2, 8, 4, 7, 6, 1, 5, 15, 11, 9, 14, 3, 12, 13, 0]]

/-- Right rotation of a W-bit word held as a Nat below 2^w. -/
def rotr (w x n : Nat) : Nat :=
  x / 2 ^ n + x % 2 ^ n * 2 ^ (w - n)

/-- Little-endian combination of a word's bytes into one Nat. -/
def leWord : List Nat → Nat
  | [] => 0
  | b :: bs => b + 256 * leWord bs

/-- Little-endian serialization of one word into wb bytes. -/
def wordLE (wb w : Nat) : List Nat :=
  (List.range wb).map (fun k => w / 256 ^ k % 256)

/-- Zero-pad a byte list on the right to length n. -/
def padTo (n : Nat) (l : List Nat) : List Nat :=
  l ++ List.replicate (n - l.length) 0

/-- Modelled from the spec: one application of the mixing sub-step of the
compression function (spec §4.4): add two selected words modulo 2^W, mix in
two message words selected by the sigma schedule, rotate by the variant's
fixed distances.  Indices a b c d select the four words of the 16-word
working vector. -/
def gMix (cfg : Config) (v : List Nat) (a b c d x y : Nat) : List Nat :=
  let M := 2 ^ cfg.wordBits
  let va := (v.getD a 0 + v.getD b 0 + x) % M
  let vd := rotr cfg.wordBits ((v.getD d 0).xor va) cfg.r1
  let vc := (v.getD c 0 + vd) % M
  let vb := rotr cfg.wordBits ((v.getD b 0).xor vc) cfg.r2
  let va2 := (va + vb + y) % M
  let vd2 := rotr cfg.wordBits (vd.xor va2) cfg.r3
  let vc2 := (vc + vd2) % M
  let vb2 := rotr cfg.wordBits (vb.xor vc2) cfg.r4
  ((((v.set a va2).set b vb2).set c vc2).set d vd2)

/-- Modelled from the spec: one mixing round (spec §4.4): the mixing sub-step
applied twice per round to four disjoint index-groups of the 16-word vector,
first as columns, then as diagonals, message words selected by the sigma row
of the round. -/
def roundFn (cfg : Config) (m : List Nat) (v : List Nat) (r : Nat) : List Nat :=
  let s := sigma.getD (r % 10) []
  let mi := fun i => m.getD (s.getD i 0) 0
  let v1 := gMix cfg v 0 4 8 12 (mi 0) (mi 1)
  let v2 := gMix cfg v1 1 5 9 13 (mi 2) (mi 3)
  let v3 := gMix cfg v2 2 6 10 14 (mi 4) (mi 5)
  let v4 := gMix cfg v3 3 7 11 15 (mi 6) (mi 7)
  let v5 := gMix cfg v4 0 5 10 15 (mi 8) (mi 9)
  let v6 := gMix cfg v5 1 6 11 12 (mi 10) (mi 11)
  let v7 := gMix cfg v6 2 7 8 13 (mi 12) (mi 13)
  gMix cfg v7 3 4 9 14 (mi 14) (mi 15)

/-- Modelled from the spec: the compression function F (spec §4.4).  Pure
function of (chain, block, counter, final flag): build the 16-word working
vector (first 8 from the chain, last 8 the initialization constants with the
two counter words exclusive-ored into words 12, 13 and, when final, an
all-ones mask into word 14), run the fixed number of rounds, then
newChain[i] = chain[i] xor working[i] xor working[i+8].  The counter is a
Nat total byte count; its two machine words are its value modulo 2^W and the
carry word below (spec §4.3: two machine words with explicit carry). -/
def compress (cfg : Config) (h : List Nat) (block : List Nat) (t : Nat)
    (final : Bool) : List Nat :=
  let M := 2 ^ cfg.wordBits
  let m := (List.range 16).map
    (fun j => leWord ((block.drop (j * cfg.wordBytes)).take cfg.wordBytes))
  let v0 := (List.range 8).map (fun i => h.getD i 0) ++
    [cfg.iv.getD 0 0, cfg.iv.getD 1 0, cfg.iv.getD 2 0, cfg.iv.getD 3 0,
     (cfg.iv.getD 4 0).xor (t % M), (cfg.iv.getD 5 0).xor (t / M % M),
     if final then (cfg.iv.getD 6 0).xor (M - 1) else cfg.iv.getD 6 0,
     cfg.iv.getD 7 0]
  let vf := (List.range cfg.rounds).foldl (roundFn cfg m) v0
  (List.range 8).map (fun i => ((h.getD i 0).xor (vf.getD i 0)).xor (vf.getD (i + 8) 0))

/-- Modelled from the spec: the fixed-layout parameter block (spec §3):
digest size, key length, the sequential-mode tree constants (fanout = 1,
depth = 1, remaining tree/reserved bytes zero), then the zero-padded salt and
personalization fields. -/
def paramBlock (cfg : Config) (q : Params) : List Nat :=
  [q.hashSize, q.key.length, 1, 1] ++
    List.replicate (8 * cfg.wordBytes - 4 - 2 * cfg.saltSize) 0 ++
    padTo cfg.saltSize q.salt ++ padTo cfg.saltSize q.personal

/-- Modelled from the spec: the initial chain value (spec §4.2): the parameter
block exclusive-ored word-wise into the variant's 8 initialization words. -/
def initChain (cfg : Config) (q : Params) : List Nat :=
  let pb := paramBlock cfg q
  (List.range 8).map
    (fun i => (cfg.iv.getD i 0).xor (leWord ((pb.drop (i * cfg.wordBytes)).take cfg.wordBytes)))

/-- Modelled from the spec: parameter validation (spec §4.1), constrained by
TestVerifyParams (src/unnamed/part_000 lines 91-117): an out-of-range hash
size (0, or above the maximum) passes validation and is normalized to the
variant's maximum digest size (the test requires HashSize 33 to be accepted
by the 32-bit variant); a key longer than the maximum is rejected; salt and
personalization lengths outside {0, field size} are rejected. -/
def verifyParams (cfg : Config) (p : Params) : Except B2Error Params :=
  if cfg.maxKey < p.key.length then .error (.invalidKeySize p.key.length)
  else if ¬(p.salt.length = 0 ∨ p.salt.length = cfg.saltSize) then
    .error (.invalidSaltSize p.salt.length)
  else if ¬(p.personal.length = 0 ∨ p.personal.length = cfg.saltSize) then
    .error (.invalidPersoSize p.personal.length)
  else
    .ok { hashSize :=
            if p.hashSize = 0 ∨ cfg.maxDigest < p.hashSize then cfg.maxDigest
            else p.hashSize,
          key := p.key, salt := p.salt, personal := p.personal }

/-- Modelled from the spec: the engine state (spec §3): chain words, byte
counter (a Nat totalling the bytes already compressed; its two machine words
are recovered modulo 2^W in compress), the buffer of not-yet-compressed bytes,
and the configured digest size. -/
structure State where
  h : List Nat
  ctr : Nat
  buf : List Nat
  hashSize : Nat
deriving DecidableEq

/-- Fuel-bounded write loop (spec §4.3): while strictly more than one block is
buffered, compress the oldest full block as non-final, advancing the counter
by BlockSize; the last block-sized chunk is always retained in the buffer.
The fuel argument bounds the iteration count structurally; writeAux below
always supplies sufficient fuel (each iteration consumes at least one byte). -/
def writeAuxF (cfg : Config) : Nat → List Nat → Nat → List Nat → List Nat × Nat × List Nat
  | 0, h, ctr, buf => (h, ctr, buf)
  | fuel + 1, h, ctr, buf =>
    if cfg.blockSize < buf.length then
      writeAuxF cfg fuel
        (compress cfg h (buf.take cfg.blockSize) (ctr + cfg.blockSize) false)
        (ctr + cfg.blockSize) (buf.drop cfg.blockSize)
    else (h, ctr, buf)

/-- Modelled from the spec: the incremental writer loop (spec §4.3) on a
(chain, counter, buffer) triple: buf.length fuel always suffices since each
compression consumes BlockSize ≥ 1 buffered bytes. -/
def writeAux (cfg : Config) (h : List Nat) (ctr : Nat) (buf : List Nat) :
    List Nat × Nat × List Nat :=
  writeAuxF cfg buf.length h ctr buf

/-- Modelled from the spec: Write (spec §4.3): append the data to the buffer
and run the writer loop; always accepts all bytes. -/
def write (cfg : Config) (s : State) (data : List Nat) : State :=
  let r := writeAux cfg s.h s.ctr (s.buf ++ data)
  ⟨r.1, r.2.1, r.2.2, s.hashSize⟩

/-- Modelled from the spec: construction (Go New; spec §4.2 and §6): validate
the parameters, build the initial chain from the parameter block, and if a
key is present absorb the key zero-padded to one full block through the
ordinary write path as the logical first input block, before any user data. -/
def New (cfg : Config) (p : Params) : Except B2Error State :=
  match verifyParams cfg p with
  | .error e => .error e
  | .ok q =>
    let s0 : State := ⟨initChain cfg q, 0, [], q.hashSize⟩
    .ok (if q.key.length = 0 then s0 else write cfg s0 (padTo cfg.blockSize q.key))

/-- Modelled from the spec: the finalizer (spec §4.5): zero-pad the buffer to
one full block, compress it with the final flag set and the counter equal to
the total bytes absorbed, serialize the chain words little-endian, and return
the first hashSize bytes. -/
def digestBytes (cfg : Config) (s : State) : List Nat :=
  let hF := compress cfg s.h (padTo cfg.blockSize s.buf) (s.ctr + s.buf.length) true
  ((hF.map (wordLE cfg.wordBytes)).flatten).take s.hashSize

/-- Modelled from the spec: the Go Sum method on an engine (spec §4.5:
"operates on a duplicate of the live State so the caller's continuation state
is untouched"): returns the digest bytes computed on a copy, paired with the
unchanged live state. -/
def sumOp (cfg : Config) (s : State) : List Nat × State :=
  (digestBytes cfg s, s)

/-- Modelled from the spec: the one-shot digest function (Go package-level
Sum; spec §4.6): validate, construct, write the entire message, finalize. -/
def Sum (cfg : Config) (msg : List Nat) (p : Params) : Except B2Error (List Nat) :=
  match New cfg p with
  | .error e => .error e
  | .ok s => .ok (digestBytes cfg (write cfg s msg))

/-- The 32-bit-word variant's configuration (package blake2s): 10 rounds,
rotations 16/12/8/7, the published 8 initialization words, 64-byte blocks,
32-byte maximum digest and key, 8-byte salt and personalization fields. -/
def blake2sCfg : Config :=
  { wordBits := 32, wordBytes := 4, rounds := 10,
    r1 := 16, r2 := 12, r3 := 8, r4 := 7,
    iv := [0x6A09E667, 0xBB67AE85, 0x3C6EF372, 0xA54FF53A,
           0x510E527F, 0x9B05688C, 0x1F83D9AB, 0x5BE0CD19],
    blockSize := 64, maxDigest := 32, maxKey := 32, saltSize := 8,
    blockPos := by decide }

/-- The 64-bit-word variant's configuration (package blake2b): 12 rounds,
rotations 32/24/16/63, the published 8 initialization words, 128-byte blocks,
64-byte maximum digest and key, 16-byte salt and personalization fields. -/
def blake2bCfg : Config :=
  { wordBits := 64, wordBytes := 8, rounds := 12,
    r1 := 32, r2 := 24, r3 := 16, r4 := 63,
    iv := [0x6A09E667F3BCC908, 0xBB67AE8584CAA73B, 0x3C6EF372FE94F82B,
           0xA54FF53A5F1D36F1, 0x510E527FADE682D1, 0x9B05688C2B3E6C1F,
           0x1F83D9ABFB41BD6B, 0x5BE0CD19137E2179],
    blockSize := 128, maxDigest := 64, maxKey := 64, saltSize := 16,
    blockPos := by decide }

end Blake2

namespace hc

/-- The error kinds produced by the hc constructors (src/hc/cipher.go:
crypto.KeySizeError and crypto.NonceSizeError, carrying the offending
length). -/
inductive HCError where
  | keySizeError (n : Nat)
  | nonceSizeError (n : Nat)
deriving DecidableEq

/-- The hc128 state (src/hc/cipher.go lines 27-31): the two tables P and Q,
the counter, 4 bytes of keystream and the offset. -/
structure HC128 where
  p : List Nat
  q : List Nat
  ctr : Nat
  stream : Nat
  off : Nat
deriving DecidableEq

/-- The hc256 state (src/hc/cipher.go lines 35-39). -/
structure HC256 where
  p : List Nat
  q : List Nat
  ctr : Nat
  stream : Nat
  off : Nat
deriving DecidableEq

/-- Modelled from the spec: the HC-128 key/nonce schedule (the initialize
method) is not under src (src/hc/cipher.go holds only the constructors and
state declarations), and the spec treats the stream ciphers' internals as out
of scope (§1, §6); no claim inspects the scheduled table contents, so
initialization is modelled as the identity on the freshly allocated state. -/
def initialize128 (key nonce : List Nat) (c : HC128) : HC128 := c

/-- Modelled from the spec: the HC-256 key/nonce schedule, as for HC-128. -/
def initialize256 (key nonce : List Nat) (c : HC256) : HC256 := c

/-- New128 (src/hc/cipher.go lines 47-64): reject a key that is not 16 bytes
with a KeySizeError, reject a nonce that is not 16 bytes with a
NonceSizeError, otherwise allocate the two 512-word tables, set the offset to
4, run initialization, and return the stream. -/
def New128 (key nonce : List Nat) : Except HCError HC128 :=
  if key.length ≠ 16 then .error (.keySizeError key.length)
  else if nonce.length ≠ 16 then .error (.nonceSizeError nonce.length)
  else .ok (initialize128 key nonce
    ⟨List.replicate 512 0, List.replicate 512 0, 0, 0, 4⟩)

/-- New256 (src/hc/cipher.go lines 72-89): as New128 with 32-byte key and
nonce and 1024-word tables. -/
def New256 (key nonce : List Nat) : Except HCError HC256 :=
  if key.length ≠ 32 then .error (.keySizeError key.length)
  else if nonce.length ≠ 32 then .error (.nonceSizeError nonce.length)
  else .ok (initialize256 key nonce
    ⟨List.replicate 1024 0, List.replicate 1024 0, 0, 0, 4⟩)

end hc

namespace chacha20

/-- The AEAD nonce size in bytes (the chacha20 tests use 12-byte nonces). -/
def NonceSize : Nat := 12

/-- The authentication-tag size in bytes. -/
def TagSize : Nat := 16

/-- Failure kinds of the authenticated-encryption wrapper's Open. -/
inductive AEADError where
  | invalidNonceSize
  | invalidCiphertextSize
  | authFailed
deriving DecidableEq

/-- Modelled from the spec: Seal of the authenticated-encryption wrapper.
The implementation is not under src (only its test file is); the spec (§1,
§6) describes it as a stream cipher plus a message-authentication code over
fixed-size buffers, so the keystream encryption `enc` and the MAC `mac`
(taking nonce, ciphertext and additional data) are abstracted as explicit
deterministic function arguments.  Seal encrypts the message and appends the
tag, as TestOpen's tag layout requires (the tag starts at index len(src)). -/
def Seal (enc : List Nat → List Nat) (mac : List Nat → List Nat → List Nat → List Nat)
    (nonce msg data : List Nat) : List Nat :=
  enc msg ++ mac nonce (enc msg) data

/-- Modelled from the spec: Open of the authenticated-encryption wrapper,
with the same abstracted `dec` and `mac`; validation order follows TestOpen
(src/unnamed/part_001 lines 261-296): reject a nonce that is not NonceSize
bytes, reject a ciphertext shorter than TagSize, recompute the tag over the
ciphertext body and reject when it differs from the trailing tag, otherwise
decrypt. -/
def Open (dec : List Nat → List Nat) (mac : List Nat → List Nat → List Nat → List Nat)
    (nonce ciphertext data : List Nat) : Except AEADError (List Nat) :=
  if nonce.length ≠ NonceSize then .error .invalidNonceSize
  else if ciphertext.length < TagSize then .error .invalidCiphertextSize
  else if mac nonce (ciphertext.take (ciphertext.length - TagSize)) data =
      ciphertext.drop (ciphertext.length - TagSize) then
    .ok (dec (ciphertext.take (ciphertext.length - TagSize)))
  else .error .authFailed

/-- One in-place byte increment, as TestOpen's `dst[len(src)+1] += 1`
(uint8 addition wraps modulo 256). -/
def addByte (l : List Nat) (i : Nat) : List Nat :=
  l.set i ((l.getD i 0 + 1) % 256)

end chacha20

namespace ecdh

/-- Big-endian interpretation of a byte sequence, as big.Int SetBytes. -/
def bytesBE (l : List Nat) : Nat :=
  l.foldl (fun acc b => 256 * acc + b) 0

/-- The point-decoding helper unmarshal (src/unnamed/part_001 lines 123-134):
with byteLen the curve's field size in bytes ((BitSize + 7) >> 3), return
nothing when the data length is not exactly 1 + 2*byteLen or the first byte
is not 4 (the uncompressed-form marker); otherwise parse x from the next
byteLen bytes and y from the rest. -/
def unmarshal (bitSize : Nat) (data : List Nat) : Option (Nat × Nat) :=
  let byteLen := (bitSize + 7) >>> 3
  if data.length ≠ 1 + 2 * byteLen then none
  else if data.getD 0 0 ≠ 4 then none
  else some (bytesBE ((data.drop 1).take byteLen), bytesBE (data.drop (1 + byteLen)))

end ecdh

namespace Blake2

theorem writeAuxF_stop (cfg : Config) (fuel : Nat) (h : List Nat) (ctr : Nat)
    (buf : List Nat) (hstop : ¬ cfg.blockSize < buf.length) :
    writeAuxF cfg fuel h ctr buf = (h, ctr, buf) := by
  cases fuel with
  | zero => rfl
  | succ n => simp only [writeAuxF]; rw [if_neg hstop]

theorem writeAuxF_of_le_bounded (cfg : Config) :
    ∀ (n : Nat) (buf : List Nat), buf.length ≤ n →
    ∀ (fuel : Nat), buf.length ≤ fuel → ∀ (h : List Nat) (ctr : Nat),
    writeAuxF cfg fuel h ctr buf = writeAux cfg h ctr buf := by
  intro n
  induction n with
  | zero =>
    intro buf hle fuel hfuel h ctr
    have hb : buf = [] := List.eq_nil_of_length_eq_zero (Nat.le_zero.mp hle)
    subst hb
    rw [writeAuxF_stop cfg fuel h ctr [] (by simp), writeAux,
      writeAuxF_stop cfg _ h ctr [] (by simp)]
  | succ n ih =>
    intro buf hle fuel hfuel h ctr
    by_cases hlt : cfg.blockSize < buf.length
    · have hbp := cfg.blockPos
      obtain ⟨f, rfl⟩ : ∃ f, fuel = f + 1 := ⟨fuel - 1, by omega⟩
      have hdrop : (buf.drop cfg.blockSize).length ≤ n := by
        simp only [List.length_drop]; omega
      have hdropf : (buf.drop cfg.blockSize).length ≤ f := by
        simp only [List.length_drop]; omega
      have hm : buf.length = (buf.length - 1) + 1 := by omega
      have hdropm : (buf.drop cfg.blockSize).length ≤ buf.length - 1 := by
        simp only [List.length_drop]; omega
      conv_lhs => simp only [writeAuxF]
      rw [if_pos hlt, ih _ hdrop _ hdropf _ _]
      conv_rhs => rw [writeAux, hm]
      simp only [writeAuxF]
      rw [if_pos hlt, ih _ hdrop _ hdropm _ _]
    · rw [writeAuxF_stop cfg _ _ _ _ hlt, writeAux,
        writeAuxF_stop cfg _ _ _ _ hlt]

theorem writeAuxF_of_le (cfg : Config) (fuel : Nat) (h : List Nat) (ctr : Nat)
    (buf : List Nat) (hle : buf.length ≤ fuel) :
    writeAuxF cfg fuel h ctr buf = writeAux cfg h ctr buf :=
  writeAuxF_of_le_bounded cfg buf.length buf le_rfl fuel hle h ctr

theorem writeAux_stop (cfg : Config) (h : List Nat) (ctr : Nat) (buf : List Nat)
    (hstop : ¬ cfg.blockSize < buf.length) :
    writeAux cfg h ctr buf = (h, ctr, buf) := by
  rw [writeAux, writeAuxF_stop cfg _ _ _ _ hstop]

theorem writeAux_step (cfg : Config) (h : List Nat) (ctr : Nat) (buf : List Nat)
    (hlt : cfg.blockSize < buf.length) :
    writeAux cfg h ctr buf =
      writeAux cfg (compress cfg h (buf.take cfg.blockSize) (ctr + cfg.blockSize) false)
        (ctr + cfg.blockSize) (buf.drop cfg.blockSize) := by
  have hbp := cfg.blockPos
  have hm : buf.length = (buf.length - 1) + 1 := by omega
  conv_lhs => rw [writeAux, hm]
  simp only [writeAuxF]
  rw [if_pos hlt]
  exact writeAuxF_of_le cfg _ _ _ _ (by simp only [List.length_drop]; omega)

theorem writeAux_append_fueled (cfg : Config) (d : List Nat) :
    ∀ (n : Nat) (buf : List Nat), buf.length ≤ n → ∀ (h : List Nat) (ctr : Nat),
    writeAux cfg (writeAux cfg h ctr buf).1 (writeAux cfg h ctr buf).2.1
      ((writeAux cfg h ctr buf).2.2 ++ d) = writeAux cfg h ctr (buf ++ d) := by
  intro n
  induction n with
  | zero =>
    intro buf hle h ctr
    have hb : buf = [] := List.eq_nil_of_length_eq_zero (Nat.le_zero.mp hle)
    subst hb
    rw [writeAux_stop cfg h ctr [] (by simp)]
  | succ n ih =>
    intro buf hle h ctr
    by_cases hlt : cfg.blockSize < buf.length
    · have hbp := cfg.blockPos
      rw [writeAux_step cfg h ctr buf hlt]
      have hlt2 : cfg.blockSize < (buf ++ d).length := by
        simp only [List.length_append]; omega
      rw [writeAux_step cfg h ctr (buf ++ d) hlt2,
        List.take_append_of_le_length (le_of_lt hlt),
        List.drop_append_of_le_length (le_of_lt hlt)]
      exact ih (buf.drop cfg.blockSize) (by simp only [List.length_drop]; omega) _ _
    · rw [writeAux_stop cfg h ctr buf hlt]

theorem writeAux_append (cfg : Config) (d buf h : List Nat) (ctr : Nat) :
    writeAux cfg (writeAux cfg h ctr buf).1 (writeAux cfg h ctr buf).2.1
      ((writeAux cfg h ctr buf).2.2 ++ d) = writeAux cfg h ctr (buf ++ d) :=
  writeAux_append_fueled cfg d buf.length buf le_rfl h ctr

theorem writeAux_buf_le_fueled (cfg : Config) :
    ∀ (n : Nat) (buf : List Nat), buf.length ≤ n → ∀ (h : List Nat) (ctr : Nat),
    (writeAux cfg h ctr buf).2.2.length ≤ cfg.blockSize := by
  intro n
  induction n with
  | zero =>
    intro buf hle h ctr
    have hb : buf = [] := List.eq_nil_of_length_eq_zero (Nat.le_zero.mp hle)
    subst hb
    rw [writeAux_stop cfg h ctr [] (by simp)]
    simp
  | succ n ih =>
    intro buf hle h ctr
    by_cases hlt : cfg.blockSize < buf.length
    · have hbp := cfg.blockPos
      rw [writeAux_step cfg h ctr buf hlt]
      exact ih (buf.drop cfg.blockSize) (by simp only [List.length_drop]; omega) _ _
    · rw [writeAux_stop cfg h ctr buf hlt]
      exact Nat.not_lt.mp hlt

theorem writeAux_buf_le (cfg : Config) (buf h : List Nat) (ctr : Nat) :
    (writeAux cfg h ctr buf).2.2.length ≤ cfg.blockSize :=
  writeAux_buf_le_fueled cfg buf.length buf le_rfl h ctr

theorem write_append (cfg : Config) (s : State) (a b : List Nat) :
    write cfg (write cfg s a) b = write cfg s (a ++ b) := by
  simp only [write]
  rw [writeAux_append cfg b (s.buf ++ a) s.h s.ctr, List.append_assoc]

theorem write_buf_le (cfg : Config) (s : State) (data : List Nat) :
    (write cfg s data).buf.length ≤ cfg.blockSize := by
  simp only [write]
  exact writeAux_buf_le cfg (s.buf ++ data) s.h s.ctr

theorem write_nil (cfg : Config) (s : State) (hs : s.buf.length ≤ cfg.blockSize) :
    write cfg s [] = s := by
  simp only [write, List.append_nil]
  rw [writeAux_stop cfg s.h s.ctr s.buf (Nat.not_lt.mpr hs)]

theorem write_hashSize (cfg : Config) (s : State) (data : List Nat) :
    (write cfg s data).hashSize = s.hashSize := rfl

theorem foldl_write (cfg : Config) :
    ∀ (chunks : List (List Nat)) (s : State), s.buf.length ≤ cfg.blockSize →
    List.foldl (write cfg) s chunks = write cfg s chunks.flatten := by
  intro chunks
  induction chunks with
  | nil =>
    intro s hs
    simpa using (write_nil cfg s hs).symm
  | cons c rest ih =>
    intro s hs
    simp only [List.foldl_cons, List.flatten_cons]
    rw [ih (write cfg s c) (write_buf_le cfg s c), write_append]

theorem foldl_write_hashSize (cfg : Config) :
    ∀ (chunks : List (List Nat)) (s : State),
    (List.foldl (write cfg) s chunks).hashSize = s.hashSize := by
  intro chunks
  induction chunks with
  | nil => intro s; rfl
  | cons c rest ih => intro s; simp only [List.foldl_cons]; rw [ih]; rfl

theorem New_ok_elim (cfg : Config) (p : Params) (s0 : State)
    (h : New cfg p = .ok s0) :
    ∃ q, verifyParams cfg p = .ok q ∧
      s0 = (if q.key.length = 0 then (⟨initChain cfg q, 0, [], q.hashSize⟩ : State)
            else write cfg ⟨initChain cfg q, 0, [], q.hashSize⟩ (padTo cfg.blockSize q.key)) := by
  unfold New at h
  cases hv : verifyParams cfg p with
  | error e => rw [hv] at h; exact absurd h (by simp)
  | ok q =>
    rw [hv] at h
    simp only [Except.ok.injEq] at h
    exact ⟨q, rfl, h.symm⟩

theorem New_buf_le (cfg : Config) (p : Params) (s0 : State)
    (h : New cfg p = .ok s0) : s0.buf.length ≤ cfg.blockSize := by
  obtain ⟨q, hv, hs⟩ := New_ok_elim cfg p s0 h
  subst hs
  split
  · simp
  · exact write_buf_le cfg _ _

theorem verifyParams_ok (cfg : Config) (p q : Params)
    (h : verifyParams cfg p = .ok q) :
    q = { hashSize := if p.hashSize = 0 ∨ cfg.maxDigest < p.hashSize
                      then cfg.maxDigest else p.hashSize,
          key := p.key, salt := p.salt, personal := p.personal } ∧
    p.key.length ≤ cfg.maxKey ∧
    (p.salt.length = 0 ∨ p.salt.length = cfg.saltSize) ∧
    (p.personal.length = 0 ∨ p.personal.length = cfg.saltSize) := by
  unfold verifyParams at h
  split at h
  · exact absurd h (by simp)
  · split at h
    · exact absurd h (by simp)
    · split at h
      · exact absurd h (by simp)
      · simp only [Except.ok.injEq] at h
        refine ⟨h.symm, ?_, ?_, ?_⟩
        · omega
        · next h1 h2 h3 => exact not_not.mp h2
        · next h1 h2 h3 => exact not_not.mp h3

theorem wordsLE_flatten_length (wb : Nat) :
    ∀ (l : List Nat), ((l.map (wordLE wb)).flatten).length = l.length * wb := by
  intro l
  induction l with
  | nil => simp
  | cons a t ih =>
    simp only [List.map_cons, List.flatten_cons, List.length_append, ih,
      List.length_cons, wordLE, List.length_map, List.length_range]
    ring

theorem compress_length (cfg : Config) (h block : List Nat) (t : Nat) (final : Bool) :
    (compress cfg h block t final).length = 8 := by
  simp [compress]

theorem digestBytes_length_eq (cfg : Config) (s : State) :
    (digestBytes cfg s).length = min s.hashSize (8 * cfg.wordBytes) := by
  simp only [digestBytes, List.length_take]
  rw [wordsLE_flatten_length, compress_length]

end Blake2

/-- C1: For every valid parameter set (every parameter set accepted by
construction) and every message, the one-shot digest function Sum (validate,
construct, write the entire message, finalize) returns bytes identical to the
incremental path (construct with New, Write the message in any chunking, then
extract the digest), for every chunking of the message across Write calls,
including the zero-length message (empty chunk list) and messages whose
length is an exact multiple of BlockSize. -/
theorem oneshot_eq_incremental (cfg : Blake2.Config) (p : Blake2.Params)
    (s0 : Blake2.State) (chunks : List (List Nat))
    (hnew : Blake2.New cfg p = .ok s0) :
    Blake2.Sum cfg chunks.flatten p =
      .ok (Blake2.digestBytes cfg (List.foldl (Blake2.write cfg) s0 chunks)) := by
  rw [Blake2.foldl_write cfg chunks s0 (Blake2.New_buf_le cfg p s0 hnew)]
  unfold Blake2.Sum
  rw [hnew]

/-- C1 witness: the unkeyed 32-bit-word engine with default digest size,
message "abc" split across two Write calls. -/
theorem oneshot_eq_incremental_witness :
    Blake2.New Blake2.blake2sCfg ⟨0, [], [], []⟩ =
      .ok ⟨[0x6B08E647, 0xBB67AE85, 0x3C6EF372, 0xA54FF53A,
            0x510E527F, 0x9B05688C, 0x1F83D9AB, 0x5BE0CD19], 0, [], 32⟩ ∧
    Blake2.Sum Blake2.blake2sCfg [[0x61], [0x62, 0x63]].flatten ⟨0, [], [], []⟩ =
      .ok (Blake2.digestBytes Blake2.blake2sCfg
        (List.foldl (Blake2.write Blake2.blake2sCfg)
          ⟨[0x6B08E647, 0xBB67AE85, 0x3C6EF372, 0xA54FF53A,
            0x510E527F, 0x9B05688C, 0x1F83D9AB, 0x5BE0CD19], 0, [], 32⟩
          [[0x61], [0x62, 0x63]])) :=
  ⟨rfl, oneshot_eq_incremental Blake2.blake2sCfg ⟨0, [], [], []⟩
    ⟨[0x6B08E647, 0xBB67AE85, 0x3C6EF372, 0xA54FF53A,
      0x510E527F, 0x9B05688C, 0x1F83D9AB, 0x5BE0CD19], 0, [], 32⟩
    [[0x61], [0x62, 0x63]] rfl⟩

/-- C4 counterexample: the claim says a digest size greater than
MaxDigestSize is rejected by verifyParams/New with InvalidDigestSize; on the
code (TestVerifyParams, src/unnamed/part_000 lines 96-99, requires HashSize
33 to pass validation on the 32-bit-word variant) validation and construction
succeed, normalizing the digest size to the maximum. -/
theorem hashSize_over_max_accepted :
    Blake2.verifyParams Blake2.blake2sCfg ⟨33, [], [], []⟩ =
      .ok ⟨32, [], [], []⟩ ∧
    Blake2.New Blake2.blake2sCfg ⟨33, [], [], []⟩ =
      .ok ⟨[0x6B08E647, 0xBB67AE85, 0x3C6EF372, 0xA54FF53A,
            0x510E527F, 0x9B05688C, 0x1F83D9AB, 0x5BE0CD19], 0, [], 32⟩ :=
  ⟨rfl, rfl⟩

/-- C4 amended: a digest size outside (0, MaxDigestSize] is not rejected:
validation never returns InvalidDigestSize; instead both 0 and values above
MaxDigestSize are normalized to MaxDigestSize, and an in-range digest size is
kept unchanged. -/
theorem verifyParams_digestSize_normalized (cfg : Blake2.Config) (p : Blake2.Params) :
    (∀ n, Blake2.verifyParams cfg p ≠ .error (.invalidDigestSize n)) ∧
    (∀ q, Blake2.verifyParams cfg p = .ok q →
      ((p.hashSize = 0 ∨ cfg.maxDigest < p.hashSize) → q.hashSize = cfg.maxDigest) ∧
      (0 < p.hashSize → p.hashSize ≤ cfg.maxDigest → q.hashSize = p.hashSize)) := by
  constructor
  · intro n
    unfold Blake2.verifyParams
    split
    · simp
    · split
      · simp
      · split
        · simp
        · simp
  · intro q hq
    obtain ⟨hq1, -, -, -⟩ := Blake2.verifyParams_ok cfg p q hq
    subst hq1
    constructor
    · intro hc
      simp only [if_pos hc]
    · intro h1 h2
      rw [if_neg (by omega)]

/-- C4 witness: the amended statement applied to the test's HashSize 33
parameters on the 32-bit-word variant. -/
theorem verifyParams_digestSize_normalized_witness :
    ((33 : Nat) = 0 ∨ Blake2.blake2sCfg.maxDigest < 33) ∧
    Blake2.verifyParams Blake2.blake2sCfg ⟨33, [], [], []⟩ = .ok ⟨32, [], [], []⟩ ∧
    (⟨32, [], [], []⟩ : Blake2.Params).hashSize = Blake2.blake2sCfg.maxDigest :=
  ⟨by decide, rfl,
    ((verifyParams_digestSize_normalized Blake2.blake2sCfg ⟨33, [], [], []⟩).2
      ⟨32, [], [], []⟩ rfl).1 (by decide)⟩

/-- C5: for every parameter set with key length strictly greater than
MaxKeySize, or with salt or personalization length outside {0, field size},
construction (New) returns a ConfigurationError and no engine value is
returned (no state is ever observable from a failed construction). -/
theorem new_rejects_invalid_lengths (cfg : Blake2.Config) (p : Blake2.Params)
    (hbad : cfg.maxKey < p.key.length ∨
      (p.salt.length ≠ 0 ∧ p.salt.length ≠ cfg.saltSize) ∨
      (p.personal.length ≠ 0 ∧ p.personal.length ≠ cfg.saltSize)) :
    (∃ e, Blake2.New cfg p = .error e) ∧ ∀ s, Blake2.New cfg p ≠ .ok s := by
  have hv : ∃ e, Blake2.verifyParams cfg p = .error e := by
    unfold Blake2.verifyParams
    split
    · exact ⟨_, rfl⟩
    · split
      · exact ⟨_, rfl⟩
      · split
        · exact ⟨_, rfl⟩
        · next h1 h2 h3 =>
          exfalso
          rcases hbad with h | h | h
          · exact h1 h
          · exact h2 (by tauto)
          · exact h3 (by tauto)
  obtain ⟨e, he⟩ := hv
  constructor
  · refine ⟨e, ?_⟩
    unfold Blake2.New
    rw [he]
  · intro s hcon
    unfold Blake2.New at hcon
    rw [he] at hcon
    exact absurd hcon (by simp)

/-- C5 witness: a 33-byte key on the 32-bit-word variant is rejected and no
engine is observable. -/
theorem new_rejects_invalid_lengths_witness :
    (Blake2.blake2sCfg.maxKey < (List.replicate 33 0).length ∨
      ((List.replicate 33 0 : List Nat).length ≠ 0 ∧
        (List.replicate 33 0 : List Nat).length ≠ Blake2.blake2sCfg.saltSize) ∨
      (([] : List Nat).length ≠ 0 ∧
        ([] : List Nat).length ≠ Blake2.blake2sCfg.saltSize)) ∧
    ((∃ e, Blake2.New Blake2.blake2sCfg ⟨0, List.replicate 33 0, [], []⟩ = .error e) ∧
      ∀ s, Blake2.New Blake2.blake2sCfg ⟨0, List.replicate 33 0, [], []⟩ ≠ .ok s) :=
  ⟨Or.inl (by decide),
    new_rejects_invalid_lengths Blake2.blake2sCfg ⟨0, List.replicate 33 0, [], []⟩
      (Or.inl (by decide))⟩

/-- C6: for every successfully constructed engine and any sequence of writes,
digest extraction returns a byte sequence whose length equals the configured
digest size (the engine's hashSize field, which is what size() reports and
which writes never change); when the parameters specify digest size 0, the
configured digest size is the variant's MaxDigestSize. -/
theorem digest_length_eq_configured (cfg : Blake2.Config) (p : Blake2.Params)
    (s0 : Blake2.State) (chunks : List (List Nat))
    (hwb : cfg.maxDigest ≤ 8 * cfg.wordBytes) (hmd : 0 < cfg.maxDigest)
    (hnew : Blake2.New cfg p = .ok s0) :
    (Blake2.digestBytes cfg (List.foldl (Blake2.write cfg) s0 chunks)).length =
      (List.foldl (Blake2.write cfg) s0 chunks).hashSize ∧
    (List.foldl (Blake2.write cfg) s0 chunks).hashSize = s0.hashSize ∧
    0 < s0.hashSize ∧ s0.hashSize ≤ cfg.maxDigest ∧
    (p.hashSize = 0 → s0.hashSize = cfg.maxDigest) := by
  obtain ⟨q, hv, hs⟩ := Blake2.New_ok_elim cfg p s0 hnew
  obtain ⟨hq, -, -, -⟩ := Blake2.verifyParams_ok cfg p q hv
  have hh : s0.hashSize = q.hashSize := by
    subst hs
    split
    · rfl
    · rfl
  have hqv : q.hashSize =
      if p.hashSize = 0 ∨ cfg.maxDigest < p.hashSize then cfg.maxDigest
      else p.hashSize := by
    rw [hq]
  have h1 : 0 < q.hashSize ∧ q.hashSize ≤ cfg.maxDigest := by
    rw [hqv]
    split
    · exact ⟨hmd, le_rfl⟩
    · constructor <;> omega
  have hfold := Blake2.foldl_write_hashSize cfg chunks s0
  refine ⟨?_, hfold, ?_, ?_, ?_⟩
  · rw [Blake2.digestBytes_length_eq, hfold, hh]
    exact Nat.min_eq_left (le_trans h1.2 hwb)
  · omega
  · omega
  · intro h0
    rw [hh, hqv, if_pos (Or.inl h0)]

/-- C6 witness: the unkeyed 32-bit-word engine with unset digest size after
one Write. -/
theorem digest_length_eq_configured_witness :
    Blake2.blake2sCfg.maxDigest ≤ 8 * Blake2.blake2sCfg.wordBytes ∧
    0 < Blake2.blake2sCfg.maxDigest ∧
    ((Blake2.digestBytes Blake2.blake2sCfg
        (List.foldl (Blake2.write Blake2.blake2sCfg)
          ⟨[0x6B08E647, 0xBB67AE85, 0x3C6EF372, 0xA54FF53A,
            0x510E527F, 0x9B05688C, 0x1F83D9AB, 0x5BE0CD19], 0, [], 32⟩
          [[1, 2, 3]])).length =
      (List.foldl (Blake2.write Blake2.blake2sCfg)
          ⟨[0x6B08E647, 0xBB67AE85, 0x3C6EF372, 0xA54FF53A,
            0x510E527F, 0x9B05688C, 0x1F83D9AB, 0x5BE0CD19], 0, [], 32⟩
          [[1, 2, 3]]).hashSize ∧
      (List.foldl (Blake2.write Blake2.blake2sCfg)
          ⟨[0x6B08E647, 0xBB67AE85, 0x3C6EF372, 0xA54FF53A,
            0x510E527F, 0x9B05688C, 0x1F83D9AB, 0x5BE0CD19], 0, [], 32⟩
          [[1, 2, 3]]).hashSize =
        (⟨[0x6B08E647, 0xBB67AE85, 0x3C6EF372, 0xA54FF53A,
           0x510E527F, 0x9B05688C, 0x1F83D9AB, 0x5BE0CD19], 0, [], 32⟩ :
           Blake2.State).hashSize ∧
      0 < (⟨[0x6B08E647, 0xBB67AE85, 0x3C6EF372, 0xA54FF53A,
             0x510E527F, 0x9B05688C, 0x1F83D9AB, 0x5BE0CD19], 0, [], 32⟩ :
             Blake2.State).hashSize ∧
      (⟨[0x6B08E647, 0xBB67AE85, 0x3C6EF372, 0xA54FF53A,
         0x510E527F, 0x9B05688C, 0x1F83D9AB, 0x5BE0CD19], 0, [], 32⟩ :
         Blake2.State).hashSize ≤ Blake2.blake2sCfg.maxDigest ∧
      ((⟨0, [], [], []⟩ : Blake2.Params).hashSize = 0 →
        (⟨[0x6B08E647, 0xBB67AE85, 0x3C6EF372, 0xA54FF53A,
           0x510E527F, 0x9B05688C, 0x1F83D9AB, 0x5BE0CD19], 0, [], 32⟩ :
           Blake2.State).hashSize = Blake2.blake2sCfg.maxDigest)) :=
  ⟨by decide, by decide,
    digest_length_eq_configured Blake2.blake2sCfg ⟨0, [], [], []⟩
      ⟨[0x6B08E647, 0xBB67AE85, 0x3C6EF372, 0xA54FF53A,
        0x510E527F, 0x9B05688C, 0x1F83D9AB, 0x5BE0CD19], 0, [], 32⟩
      [[1, 2, 3]] (by decide) (by decide) rfl⟩

/-- C7: digest extraction (the Sum method, modelled by sumOp) operates on a
duplicate of the live state: the live state after extraction is unchanged,
two consecutive extractions with no intervening Write return identical bytes,
and a subsequent Write still succeeds, a following extraction returning
exactly the digest of the accumulated message with the appended bytes. -/
theorem extraction_nondestructive (cfg : Blake2.Config) (s0 : Blake2.State)
    (msg extra : List Nat) :
    ((Blake2.sumOp cfg (Blake2.write cfg s0 msg)).2 = Blake2.write cfg s0 msg) ∧
    ((Blake2.sumOp cfg (Blake2.write cfg s0 msg)).1 =
      (Blake2.sumOp cfg ((Blake2.sumOp cfg (Blake2.write cfg s0 msg)).2)).1) ∧
    ((Blake2.sumOp cfg (Blake2.write cfg
        ((Blake2.sumOp cfg (Blake2.write cfg s0 msg)).2) extra)).1 =
      (Blake2.sumOp cfg (Blake2.write cfg s0 (msg ++ extra))).1) := by
  refine ⟨rfl, rfl, ?_⟩
  simp only [Blake2.sumOp]
  rw [Blake2.write_append]

/-- C2: the 64-bit-word variant (blake2b), unkeyed with maximum digest size,
maps the empty message to the published digest 786A02F7...BE2CE and the
three-byte message "abc" to the published digest BA80A53F981C4D0D...D4009923
(full digests as in src/unnamed/part_001 lines 13-29). -/
theorem blake2b_published_vectors :
    Blake2.Sum Blake2.blake2bCfg [] ⟨64, [], [], []⟩ =
      .ok [0x78, 0x6A, 0x02, 0xF7, 0x42, 0x01, 0x59, 0x03, 0xC6, 0xC6, 0xFD,
           0x85, 0x25, 0x52, 0xD2, 0x72, 0x91, 0x2F, 0x47, 0x40, 0xE1, 0x58,
           0x47, 0x61, 0x8A, 0x86, 0xE2, 0x17, 0xF7, 0x1F, 0x54, 0x19, 0xD2,
           0x5E, 0x10, 0x31, 0xAF, 0xEE, 0x58, 0x53, 0x13, 0x89, 0x64, 0x44,
           0x93, 0x4E, 0xB0, 0x4B, 0x90, 0x3A, 0x68, 0x5B, 0x14, 0x48, 0xB7,
           0x55, 0xD5, 0x6F, 0x70, 0x1A, 0xFE, 0x9B, 0xE2, 0xCE] ∧
    Blake2.Sum Blake2.blake2bCfg [0x61, 0x62, 0x63] ⟨64, [], [], []⟩ =
      .ok [0xBA, 0x80, 0xA5, 0x3F, 0x98, 0x1C, 0x4D, 0x0D, 0x6A, 0x27, 0x97,
           0xB6, 0x9F, 0x12, 0xF6, 0xE9, 0x4C, 0x21, 0x2F, 0x14, 0x68, 0x5A,
           0xC4, 0xB7, 0x4B, 0x12, 0xBB, 0x6F, 0xDB, 0xFF, 0xA2, 0xD1, 0x7D,
           0x87, 0xC5, 0x39, 0x2A, 0xAB, 0x79, 0x2D, 0xC2, 0x52, 0xD5, 0xDE,
           0x45, 0x33, 0xCC, 0x95, 0x18, 0xD3, 0x8A, 0xA8, 0xDB, 0xF1, 0x92,
           0x5A, 0xB9, 0x23, 0x86, 0xED, 0xD4, 0x00, 0x99, 0x23] :=
  ⟨rfl, rfl⟩

/-- C3: the 32-bit-word variant (blake2s) keyed with the 32-byte ascending
key 00 01 ... 1f and 32-byte digest size (the first test vector leaves the
hash size unset, which configures the 32-byte default) maps the empty message
to 48a8997d...45fd2c49, the single byte 00 to 40d15fee...598066f1, and the
255-byte ascending pattern 00..fe to 3fb73506...efd724dd (src/unnamed/part_000
lines 27-54). -/
theorem blake2s_keyed_vectors :
    Blake2.Sum Blake2.blake2sCfg [] ⟨0, List.range 32, [], []⟩ =
      .ok [0x48, 0xA8, 0x99, 0x7D, 0xA4, 0x07, 0x87, 0x6B, 0x3D, 0x79, 0xC0,
           0xD9, 0x23, 0x25, 0xAD, 0x3B, 0x89, 0xCB, 0xB7, 0x54, 0xD8, 0x6A,
           0xB7, 0x1A, 0xEE, 0x04, 0x7A, 0xD3, 0x45, 0xFD, 0x2C, 0x49] ∧
    Blake2.Sum Blake2.blake2sCfg [0] ⟨32, List.range 32, [], []⟩ =
      .ok [0x40, 0xD1, 0x5F, 0xEE, 0x7C, 0x32, 0x88, 0x30, 0x16, 0x6A, 0xC3,
           0xF9, 0x18, 0x65, 0x0F, 0x80, 0x7E, 0x7E, 0x01, 0xE1, 0x77, 0x25,
           0x8C, 0xDC, 0x0A, 0x39, 0xB1, 0x1F, 0x59, 0x80, 0x66, 0xF1] ∧
    Blake2.Sum Blake2.blake2sCfg (List.range 255) ⟨32, List.range 32, [], []⟩ =
      .ok [0x3F, 0xB7, 0x35, 0x06, 0x1A, 0xBC, 0x51, 0x9D, 0xFE, 0x97, 0x9E,
           0x54, 0xC1, 0xEE, 0x5B, 0xFA, 0xD0, 0xA9, 0xD8, 0x58, 0xB3, 0x31,
           0x5B, 0xAD, 0x34, 0xBD, 0xE9, 0x99, 0xEF, 0xD7, 0x24, 0xDD] :=
  ⟨rfl, rfl, rfl⟩

/-- C8: the stream-cipher constructors validate their fixed-size key/nonce
inputs: New128 succeeds exactly when the key and nonce are both 16 bytes,
New256 exactly when both are 32 bytes; on a bad key the error is the
KeySizeError carrying the key length, on a good key but bad nonce it is the
NonceSizeError carrying the nonce length (src/hc/cipher.go lines 47-89). -/
theorem hc_constructors_validate (key nonce key2 nonce2 : List Nat) :
    ((∃ c, hc.New128 key nonce = .ok c) ↔ key.length = 16 ∧ nonce.length = 16) ∧
    ((∃ c, hc.New256 key2 nonce2 = .ok c) ↔ key2.length = 32 ∧ nonce2.length = 32) ∧
    (key.length ≠ 16 → hc.New128 key nonce = .error (.keySizeError key.length)) ∧
    (key.length = 16 → nonce.length ≠ 16 →
      hc.New128 key nonce = .error (.nonceSizeError nonce.length)) ∧
    (key2.length ≠ 32 → hc.New256 key2 nonce2 = .error (.keySizeError key2.length)) ∧
    (key2.length = 32 → nonce2.length ≠ 32 →
      hc.New256 key2 nonce2 = .error (.nonceSizeError nonce2.length)) := by
  unfold hc.New128 hc.New256
  refine ⟨?_, ?_, ?_, ?_, ?_, ?_⟩ <;> split_ifs <;> simp_all

/-- C8 witness: 16/16-byte inputs construct an HC-128 stream, a 15-byte key
is rejected with the KeySizeError for length 15, and 32/31-byte inputs are
rejected by New256 with the NonceSizeError for length 31. -/
theorem hc_constructors_validate_witness :
    ((∃ c, hc.New128 (List.replicate 16 0) (List.replicate 16 0) = .ok c) ↔
      (List.replicate 16 (0 : Nat)).length = 16 ∧
        (List.replicate 16 (0 : Nat)).length = 16) ∧
    (List.replicate 15 (0 : Nat)).length ≠ 16 ∧
    hc.New128 (List.replicate 15 0) (List.replicate 16 0) =
      .error (.keySizeError (List.replicate 15 (0 : Nat)).length) ∧
    hc.New256 (List.replicate 32 0) (List.replicate 31 0) =
      .error (.nonceSizeError (List.replicate 31 (0 : Nat)).length) :=
  ⟨(hc_constructors_validate (List.replicate 16 0) (List.replicate 16 0)
      (List.replicate 32 0) (List.replicate 31 0)).1,
   by decide,
   (hc_constructors_validate (List.replicate 15 0) (List.replicate 16 0)
      (List.replicate 32 0) (List.replicate 31 0)).2.2.1 (by decide),
   (hc_constructors_validate (List.replicate 15 0) (List.replicate 16 0)
      (List.replicate 32 0) (List.replicate 31 0)).2.2.2.2.2 (by decide) (by decide)⟩

/-- C9: the authenticated-encryption wrapper's Open returns an error whenever
the nonce length differs from NonceSize, whenever the ciphertext is shorter
than the tag size, and whenever the recomputed authentication tag does not
match the trailing tag; in particular, sealing a message and then adding one
to the tag byte at position len(message)+1 (as TestOpen does) makes Open
reject, for every deterministic MAC with TagSize-byte output. -/
theorem aead_open_rejects (dec enc : List Nat → List Nat)
    (mac : List Nat → List Nat → List Nat → List Nat)
    (nonce ct data msg : List Nat)
    (hmac : ∀ n c d, (mac n c d).length = chacha20.TagSize) :
    (nonce.length ≠ chacha20.NonceSize →
      chacha20.Open dec mac nonce ct data = .error .invalidNonceSize) ∧
    (nonce.length = chacha20.NonceSize → ct.length < chacha20.TagSize →
      chacha20.Open dec mac nonce ct data = .error .invalidCiphertextSize) ∧
    (nonce.length = chacha20.NonceSize → chacha20.TagSize ≤ ct.length →
      mac nonce (ct.take (ct.length - chacha20.TagSize)) data ≠
        ct.drop (ct.length - chacha20.TagSize) →
      chacha20.Open dec mac nonce ct data = .error .authFailed) ∧
    (nonce.length = chacha20.NonceSize →
      chacha20.Open dec mac nonce
        (chacha20.addByte (chacha20.Seal enc mac nonce msg data)
          ((enc msg).length + 1)) data = .error .authFailed) := by
  refine ⟨?_, ?_, ?_, ?_⟩
  · intro hn
    unfold chacha20.Open
    rw [if_pos hn]
  · intro hn hlen
    unfold chacha20.Open
    rw [if_neg (by omega), if_pos hlen]
  · intro hn hlen htag
    unfold chacha20.Open
    rw [if_neg (by omega), if_neg (by omega), if_neg htag]
  · intro hn
    have ht := hmac nonce (enc msg) data
    set c := enc msg with hc
    set t := mac nonce c data with htdef
    have hset : chacha20.addByte (chacha20.Seal enc mac nonce msg data)
        (c.length + 1) = c ++ t.set 1 ((t.getD 1 0 + 1) % 256) := by
      unfold chacha20.addByte chacha20.Seal
      rw [← hc, ← htdef,
        List.getD_append_right c t 0 (c.length + 1) (by omega),
        List.set_append_right _ _ (by omega)]
      simp only [Nat.add_sub_cancel_left]
    have h1lt : 1 < t.length := by rw [ht]; decide
    have hgd : (t.set 1 ((t.getD 1 0 + 1) % 256)).getD 1 0 =
        (t.getD 1 0 + 1) % 256 := by
      rw [List.getD_eq_getElem _ _ (by simpa using h1lt)]
      simp [List.getElem_set_self]
    have hne : mac nonce c data ≠ t.set 1 ((t.getD 1 0 + 1) % 256) := by
      intro hcon
      have h2 := congrArg (fun l => l.getD 1 0) hcon
      simp only at h2
      rw [hgd, ← htdef] at h2
      omega
    have hlen' : (c ++ t.set 1 ((t.getD 1 0 + 1) % 256)).length =
        c.length + chacha20.TagSize := by
      simp [List.length_append, List.length_set, ht]
    rw [hset]
    unfold chacha20.Open
    rw [if_neg (by omega), if_neg (by rw [hlen']; omega), hlen']
    simp only [Nat.add_sub_cancel]
    rw [List.take_left c _, List.drop_left c _, if_neg hne]

/-- C9 witness: a constant 16-byte MAC, identity keystream; an 11-byte nonce
is rejected, a 15-byte ciphertext is rejected, and sealing 64 zero bytes then
bumping tag byte 1 (absolute index 65) is rejected as an authentication
failure. -/
theorem aead_open_rejects_witness :
    chacha20.Open id (fun _ _ _ => List.replicate 16 0)
      (List.replicate 11 0) (List.replicate 20 0) [] = .error .invalidNonceSize ∧
    chacha20.Open id (fun _ _ _ => List.replicate 16 0)
      (List.replicate 12 0) (List.replicate 15 0) [] =
        .error .invalidCiphertextSize ∧
    chacha20.Open id (fun _ _ _ => List.replicate 16 0)
      (List.replicate 12 0)
      (chacha20.addByte
        (chacha20.Seal id (fun _ _ _ => List.replicate 16 0)
          (List.replicate 12 0) (List.replicate 64 0) [])
        ((id (List.replicate 64 (0 : Nat))).length + 1)) [] =
        .error .authFailed :=
  ⟨(aead_open_rejects id id (fun _ _ _ => List.replicate 16 0)
      (List.replicate 11 0) (List.replicate 20 0) [] (List.replicate 64 0)
      (fun _ _ _ => rfl)).1 (by decide),
   (aead_open_rejects id id (fun _ _ _ => List.replicate 16 0)
      (List.replicate 12 0) (List.replicate 15 0) [] (List.replicate 64 0)
      (fun _ _ _ => rfl)).2.1 (by decide) (by decide),
   (aead_open_rejects id id (fun _ _ _ => List.replicate 16 0)
      (List.replicate 12 0) (List.replicate 15 0) [] (List.replicate 64 0)
      (fun _ _ _ => rfl)).2.2.2 (by decide)⟩

/-- C10: the key-exchange wrapper's point-decoding helper unmarshal returns
nothing for every input whose length is not exactly 1 + 2*byteLen (byteLen
the curve's field size in bytes, (BitSize + 7) >> 3) or whose first byte is
not 4 (the uncompressed-form marker); x and y are parsed only for well-formed
uncompressed encodings. -/
theorem unmarshal_rejects_malformed (bitSize : Nat) (data : List Nat) :
    (data.length ≠ 1 + 2 * ((bitSize + 7) >>> 3) ∨ data.getD 0 0 ≠ 4 →
      ecdh.unmarshal bitSize data = none) ∧
    (ecdh.unmarshal bitSize data ≠ none →
      data.length = 1 + 2 * ((bitSize + 7) >>> 3) ∧ data.getD 0 0 = 4) := by
  unfold ecdh.unmarshal
  constructor
  · rintro (h | h)
    · rw [if_pos h]
    · by_cases h1 : data.length = 1 + 2 * ((bitSize + 7) >>> 3)
      · rw [if_neg (by omega), if_pos h]
      · rw [if_pos h1]
  · intro h
    by_cases h1 : data.length = 1 + 2 * ((bitSize + 7) >>> 3)
    · by_cases h2 : data.getD 0 0 = 4
      · exact ⟨h1, h2⟩
      · rw [if_neg (by omega), if_pos h2] at h
        exact absurd rfl h
    · rw [if_pos h1] at h
      exact absurd rfl h

/-- C10 witness: a 65-byte all-zero input for a 256-bit curve has the right
length but a bad leading byte and is rejected; a 64-byte input has the wrong
length and is rejected. -/
theorem unmarshal_rejects_malformed_witness :
    ((List.replicate 65 (0 : Nat)).length ≠ 1 + 2 * ((256 + 7) >>> 3) ∨
      (List.replicate 65 (0 : Nat)).getD 0 0 ≠ 4) ∧
    ecdh.unmarshal 256 (List.replicate 65 0) = none ∧
    ((List.replicate 64 (0 : Nat)).length ≠ 1 + 2 * ((256 + 7) >>> 3) ∨
      (List.replicate 64 (0 : Nat)).getD 0 0 ≠ 4) ∧
    ecdh.unmarshal 256 (List.replicate 64 0) = none :=
  ⟨Or.inr (by decide),
   (unmarshal_rejects_malformed 256 (List.replicate 65 0)).1 (Or.inr (by decide)),
   Or.inl (by decide),
   (unmarshal_rejects_malformed 256 (List.replicate 64 0)).1 (Or.inl (by decide))⟩
